import Mathlib

/-!
Verification of the flexrc dual-mode reference-counting library.

The development shallowly embeds the counting metadata of the two schemes
(the single-word hybrid scheme of `src/flexrc/src/algorithm/hybrid.rs` /
`src/flexrc/src/hybrid.rs`, and the independent-counter scheme of
`src/flexrc/src/algorithm/regular.rs` / `src/flexrc/src/regular.rs`),
the generic container operations of `src/flexrc/src/lib.rs`, and the
thread-identity tracker of `src/flexrc/src/algorithm/hybrid_threads.rs`.

Machine words (`u32` counters in the hybrid scheme, `usize` counters in the
independent scheme) are modelled as `Nat` with explicit `% 2^32` / `% 2^64`
wraparound where the Rust code can wrap, and `Nat.land` / `Nat.lor` for the
atomic `fetch_and` / `fetch_or` operations.  A Rust `abort()` / overflow
`panic!` is modelled as `Option.none`.  Atomic read-modify-write operations
are total under any interleaving, so any concurrent execution corresponds to
a sequential trace over these steps.
-/

namespace Flexrc

namespace Hybrid

/-- `u32::MAX`: entire counter usable for local (algorithm/hybrid.rs). -/
def MAX_LOCAL_COUNT : Nat := 2 ^ 32 - 1

/-- `u32::MAX >> 2`: top bit reserved for "local present", second-to-top for
overflow headroom (algorithm/hybrid.rs). -/
def MAX_SHARED_COUNT : Nat := (2 ^ 32 - 1) >>> 2

/-- `(u32::MAX >> 1) + 1`: top bit of the shared counter word, set when local
handles are present (algorithm/hybrid.rs). -/
def LOCAL_PRESENT : Nat := ((2 ^ 32 - 1) >>> 1) + 1

/-- `u32::MAX >> 1`: all bits except the top one (algorithm/hybrid.rs). -/
def CLEAR_LOCAL : Nat := (2 ^ 32 - 1) >>> 1

/-- The shared state of `HybridMeta<MODE>`: a non-atomic local counter and an
atomic shared counter word (both `u32`).  The `MODE` marker only selects which
trait impl runs; it adds no state, so it is not part of the structure. -/
structure HybridMeta where
  local_count : Nat
  shared_count : Nat
  deriving DecidableEq

/-- `HybridMeta<LocalMode>::create`: one local handle, shared word holds only
the presence bit. -/
def localCreate : HybridMeta :=
  { local_count := 1, shared_count := LOCAL_PRESENT }

/-- `HybridMeta<SharedMode>::create`: no local handle, shared count 1,
presence bit clear. -/
def sharedCreate : HybridMeta :=
  { local_count := 0, shared_count := 1 }

/-- `HybridMeta<LocalMode>::is_unique`. -/
def localIsUnique (m : HybridMeta) : Bool :=
  m.local_count == 1 && m.shared_count == LOCAL_PRESENT

/-- `HybridMeta<SharedMode>::is_unique`. -/
def sharedIsUnique (m : HybridMeta) : Bool :=
  m.shared_count == 1

/-- `HybridMeta<LocalMode>::clone`: aborts (`none`) at the counter maximum,
otherwise increments the local counter. -/
def localClone (m : HybridMeta) : Option HybridMeta :=
  let old := m.local_count
  if old == MAX_LOCAL_COUNT then none
  else some { m with local_count := old + 1 }

/-- `HybridMeta<SharedMode>::clone`: `fetch_add(1, Relaxed)` on the shared
word, then abort (`none`) if the previous value exceeded the overflow
threshold. -/
def sharedClone (m : HybridMeta) : Option HybridMeta :=
  let old := m.shared_count
  let m' := { m with shared_count := (old + 1) % 2 ^ 32 }
  if MAX_SHARED_COUNT < old then none else some m'

/-- `HybridMeta<LocalMode>::drop`: decrement the local counter; when it hits
zero, `fetch_and(CLEAR_LOCAL, Release)` clears the presence bit and the
pre-clear word equal to exactly `LOCAL_PRESENT` signals deallocation. -/
def localDrop (m : HybridMeta) : HybridMeta × Bool :=
  let lc := (m.local_count + (2 ^ 32 - 1)) % 2 ^ 32
  if lc == 0 then
    let old := m.shared_count
    ({ local_count := lc, shared_count := old &&& CLEAR_LOCAL },
      old == LOCAL_PRESENT)
  else
    ({ m with local_count := lc }, false)

/-- `HybridMeta<SharedMode>::drop`: `fetch_sub(1, Release)`; a pre-decrement
word of exactly 1 (no presence bit, count 1) signals deallocation (the
`Acquire` fence before deallocation has no effect in this sequential
embedding). -/
def sharedDrop (m : HybridMeta) : HybridMeta × Bool :=
  let old := m.shared_count
  ({ m with shared_count := (old + (2 ^ 32 - 1)) % 2 ^ 32 }, old == 1)

/-- `HybridMeta<LocalMode>::try_into_other` (algorithm/hybrid.rs): the cast is
unconditional, then the metadata is re-read as `SharedMode` and its `clone`
runs to account for the new shared handle.  `none` models the abort inside
that clone. -/
def localTryIntoOther (m : HybridMeta) : Option (HybridMeta × Bool) :=
  (sharedClone m).map fun m' => (m', true)

/-- `HybridMeta<LocalMode>::try_to_other` (algorithm/hybrid.rs): same body as
the consuming conversion. -/
def localTryToOther (m : HybridMeta) : Option (HybridMeta × Bool) :=
  localTryIntoOther m

/-- `HybridMeta<SharedMode>::try_into_other`, `track_threads` disabled
(algorithm/hybrid.rs): `fetch_or(LOCAL_PRESENT, Acquire)`; if the previous
word had the presence bit clear the claim succeeds and the metadata re-read as
`LocalMode` is cloned (local counter + 1); otherwise the claim fails.  The
`Bool` reports success; `none` models the abort inside the local clone. -/
def sharedTryIntoOther (m : HybridMeta) : Option (HybridMeta × Bool) :=
  let old := m.shared_count
  let m1 := { m with shared_count := old ||| LOCAL_PRESENT }
  if old < LOCAL_PRESENT then
    (localClone m1).map fun m2 => (m2, true)
  else
    some (m1, false)

/-- `HybridMeta<SharedMode>::try_to_other`: same body as the consuming
conversion. -/
def sharedTryToOther (m : HybridMeta) : Option (HybridMeta × Bool) :=
  sharedTryIntoOther m

/-- A clone or drop step performed through a handle of one of the two
flavors of a hybrid record. -/
inductive HOp
  | cloneL
  | dropL
  | cloneS
  | dropS
  deriving DecidableEq

/-- A run state: the metadata of one `FlexRcInner` together with the ghost
numbers of live Local and Shared handles over it and the number of times
`drop()` has reported that the record must be deallocated. -/
structure HRun where
  meta : HybridMeta
  liveL : Nat
  liveS : Nat
  deallocs : Nat
  deriving DecidableEq

/-- One clone/drop step on a hybrid record.  A step is legal only when a live
handle of the operation's flavor exists to perform it; `none` also models the
process abort inside an overflowing clone. -/
def hybridStep (st : HRun) : HOp → Option HRun
  | .cloneL =>
    if st.liveL = 0 then none
    else (localClone st.meta).map fun m' =>
      { st with meta := m', liveL := st.liveL + 1 }
  | .dropL =>
    if st.liveL = 0 then none
    else
      let r := localDrop st.meta
      some { st with meta := r.1, liveL := st.liveL - 1, deallocs := st.deallocs + (if r.2 then 1 else 0) }
  | .cloneS =>
    if st.liveS = 0 then none
    else (sharedClone st.meta).map fun m' =>
      { st with meta := m', liveS := st.liveS + 1 }
  | .dropS =>
    if st.liveS = 0 then none
    else
      let r := sharedDrop st.meta
      some { st with meta := r.1, liveS := st.liveS - 1, deallocs := st.deallocs + (if r.2 then 1 else 0) }

/-- Run a finite sequence of clone/drop steps on a hybrid record. -/
def hybridRun (st : HRun) : List HOp → Option HRun
  | [] => some st
  | op :: ops =>
    match hybridStep st op with
    | some st' => hybridRun st' ops
    | none => none

/-- The counting invariant tying a hybrid record's two counters to the ghost
numbers `L` of live Local and `S` of live Shared handles: the shared word
carries the presence bit exactly while Local handles exist, and its low bits
are the shared count. -/
def hybridInv (m : HybridMeta) (L S : Nat) : Prop :=
  S ≤ 2 ^ 30 ∧ L ≤ MAX_LOCAL_COUNT ∧
    ((L = 0 ∧ m.local_count = 0 ∧ m.shared_count = S) ∨
     (1 ≤ L ∧ m.local_count = L ∧ m.shared_count = LOCAL_PRESENT + S))

end Hybrid

namespace Regular

/-- `usize::MAX` (algorithm/regular.rs, default counter width). -/
def MAX_LOCAL_COUNT : Nat := 2 ^ 64 - 1

/-- `usize::MAX >> 1`: room left for overflow (algorithm/regular.rs). -/
def MAX_SHARED_COUNT : Nat := (2 ^ 64 - 1) >>> 1

/-- The state of the `Meta<MODE>` union: one `usize` counter, read either as
`Cell<usize>` (Local) or `AtomicUsize` (Shared); both variants overlay the
same word. -/
structure Meta where
  count : Nat
  deriving DecidableEq

/-- `Meta<LocalMode>::create` and `Meta<SharedMode>::create`: count 1. -/
def create : Meta := { count := 1 }

/-- `Meta<LocalMode>::is_unique`. -/
def localIsUnique (m : Meta) : Bool := m.count == 1

/-- `Meta<SharedMode>::is_unique` (Acquire load). -/
def sharedIsUnique (m : Meta) : Bool := m.count == 1

/-- `Meta<LocalMode>::clone`: aborts (`none`) at the counter maximum. -/
def localClone (m : Meta) : Option Meta :=
  let old := m.count
  if old == MAX_LOCAL_COUNT then none
  else some { count := old + 1 }

/-- `Meta<SharedMode>::clone`: `fetch_add(1, Relaxed)` then abort (`none`) if
the previous value exceeded the overflow threshold. -/
def sharedClone (m : Meta) : Option Meta :=
  let old := m.count
  let m' : Meta := { count := (old + 1) % 2 ^ 64 }
  if MAX_SHARED_COUNT < old then none else some m'

/-- `Meta<LocalMode>::drop`: decrement, report deallocation when the counter
reaches zero. -/
def localDrop (m : Meta) : Meta × Bool :=
  let c := (m.count + (2 ^ 64 - 1)) % 2 ^ 64
  ({ count := c }, c == 0)

/-- `Meta<SharedMode>::drop`: `fetch_sub(1, Release)`, report deallocation
when the previous value was 1 (the Acquire fence has no effect in this
sequential embedding). -/
def sharedDrop (m : Meta) : Meta × Bool :=
  let old := m.count
  ({ count := (old + (2 ^ 64 - 1)) % 2 ^ 64 }, old == 1)

/-- `Meta<LocalMode>::try_into_other` (algorithm/regular.rs): succeeds only if
unique, overwriting the word with a fresh atomic counter of value 1; on
failure the original pointer comes back with no state changed. -/
def localTryIntoOther (m : Meta) : Except Meta Meta :=
  if localIsUnique m then .ok { count := 1 } else .error m

/-- `Meta<SharedMode>::try_into_other` (algorithm/regular.rs): succeeds only
if unique, overwriting the word with `Cell::new(1)`; on failure the original
pointer comes back with no state changed. -/
def sharedTryIntoOther (m : Meta) : Except Meta Meta :=
  if sharedIsUnique m then .ok { count := 1 } else .error m

/-- `Meta<LocalMode>::try_to_other`: never allowed. -/
def localTryToOther (m : Meta) : Except Meta Meta := .error m

/-- `Meta<SharedMode>::try_to_other`: never allowed. -/
def sharedTryToOther (m : Meta) : Except Meta Meta := .error m

/-- A clone or drop step on an independent-counter record. -/
inductive ROp
  | clone
  | drop
  deriving DecidableEq

/-- Run state for an independent-counter record: metadata, ghost live handle
count, and the number of deallocation reports. -/
structure RRun where
  meta : Meta
  live : Nat
  deallocs : Nat
  deriving DecidableEq

/-- One clone/drop step through a Local handle. -/
def localStep (st : RRun) : ROp → Option RRun
  | .clone =>
    if st.live = 0 then none
    else (localClone st.meta).map fun m' =>
      { st with meta := m', live := st.live + 1 }
  | .drop =>
    if st.live = 0 then none
    else
      let r := localDrop st.meta
      some { st with meta := r.1, live := st.live - 1, deallocs := st.deallocs + (if r.2 then 1 else 0) }

/-- One clone/drop step through a Shared handle. -/
def sharedStep (st : RRun) : ROp → Option RRun
  | .clone =>
    if st.live = 0 then none
    else (sharedClone st.meta).map fun m' =>
      { st with meta := m', live := st.live + 1 }
  | .drop =>
    if st.live = 0 then none
    else
      let r := sharedDrop st.meta
      some { st with meta := r.1, live := st.live - 1, deallocs := st.deallocs + (if r.2 then 1 else 0) }

/-- Run a finite sequence of clone/drop steps through Local handles. -/
def localRun (st : RRun) : List ROp → Option RRun
  | [] => some st
  | op :: ops =>
    match localStep st op with
    | some st' => localRun st' ops
    | none => none

/-- Run a finite sequence of clone/drop steps through Shared handles. -/
def sharedRun (st : RRun) : List ROp → Option RRun
  | [] => some st
  | op :: ops =>
    match sharedStep st op with
    | some st' => sharedRun st' ops
    | none => none

/-- Counting invariant of the independent-counter scheme: the counter equals
the number of live handles, within the representable range. -/
def regularInv (m : Meta) (H : Nat) : Prop :=
  m.count = H ∧ H ≤ 2 ^ 64 - 1

end Regular

namespace Container

/-- One `FlexRcInner`: metadata plus payload, generic over the metadata type
(lib.rs `FlexRcInner<META, META2, T>`). -/
structure FlexRcInner (μ α : Type) where
  metadata : μ
  data : α
  deriving DecidableEq

/-- The set of allocated `FlexRcInner` records; a handle's pointer is an index
into it.  Allocating appends; records are never moved. -/
structure Heap (μ α : Type) where
  recs : List (FlexRcInner μ α)
  deriving DecidableEq

/-- `FlexRc::get_mut` (lib.rs): exclusive access to the payload exactly when
the metadata reports uniqueness, otherwise `None`; nothing is mutated.
`is_unique` is the `Algorithm` trait method of the instantiated scheme. -/
def getMut {μ α : Type} (is_unique : μ → Bool) (hp : Heap μ α) (ptr : Nat) :
    Option α :=
  match hp.recs.get? ptr with
  | some r => if is_unique r.metadata then some r.data else none
  | none => none

/-- `FlexRc::try_into_other` (lib.rs): when the metadata reports uniqueness
the handle is reinterpreted in place (`mem::transmute`), keeping the same
pointer and allocating nothing; otherwise the original handle is returned.
The resulting heap is returned to make the absence of mutation explicit. -/
def tryIntoOther {μ α : Type} (is_unique : μ → Bool) (hp : Heap μ α)
    (ptr : Nat) : Heap μ α × Option Nat :=
  match hp.recs.get? ptr with
  | some r => if is_unique r.metadata then (hp, some ptr) else (hp, none)
  | none => (hp, none)

end Container

namespace Tracker

/-- `usize::MAX >> 1` (algorithm/hybrid_threads.rs). -/
def MAX_THREADS : Nat := (2 ^ 64 - 1) >>> 1

/-- `ThreadTrackerInner`: the monotonic counter and the set of issued
identities (the `HashSet` is modelled as a duplicate-free list). -/
structure ThreadTrackerInner where
  counter : Nat
  used_counters : List Nat
  deriving DecidableEq

/-- `HashSet::insert`: reports whether the value was absent, inserting it if
so. -/
def insertUsed (l : List Nat) (n : Nat) : Bool × List Nat :=
  if n ∈ l then (false, l) else (true, n :: l)

/-- `ThreadTracker::get_new_id`: increment the counter, wrap back to 1 upon
reaching `MAX_THREADS`, and re-probe until insertion into the issued set
succeeds.  The `fuel` bounds the unbounded Rust `loop`; `none` means the fuel
ran out before a free identity was found. -/
def getNewId : Nat → ThreadTrackerInner → Option (Nat × ThreadTrackerInner)
  | 0, _ => none
  | fuel + 1, st =>
    let c1 := st.counter + 1
    let c2 := if c1 == MAX_THREADS then 1 else c1
    match insertUsed st.used_counters c2 with
    | (true, l) => some (c2, { counter := c2, used_counters := l })
    | (false, _) => getNewId fuel { st with counter := c2 }

/-- `ThreadTracker::return_id`: remove the identity from the issued set. -/
def returnId (st : ThreadTrackerInner) (id : Nat) : ThreadTrackerInner :=
  { st with used_counters := st.used_counters.erase id }

end Tracker

end Flexrc

/-! ### Helper lemmas -/

namespace Flexrc

namespace Hybrid

theorem LOCAL_PRESENT_eq : LOCAL_PRESENT = 2 ^ 31 := by decide

theorem CLEAR_LOCAL_eq : CLEAR_LOCAL = 2 ^ 31 - 1 := by decide

theorem MAX_SHARED_COUNT_eq : MAX_SHARED_COUNT = 2 ^ 30 - 1 := by decide

theorem land_CLEAR_LOCAL (v : Nat) : v &&& CLEAR_LOCAL = v % 2 ^ 31 := by
  rw [CLEAR_LOCAL_eq]
  exact Nat.and_pow_two_sub_one_eq_mod v 31

theorem lor_LOCAL_PRESENT_of_lt {v : Nat} (h : v < LOCAL_PRESENT) :
    v ||| LOCAL_PRESENT = LOCAL_PRESENT + v := by
  rw [LOCAL_PRESENT_eq] at h ⊢
  have h2 := Nat.mul_add_lt_is_or h 1
  rw [Nat.mul_one] at h2
  rw [Nat.lor_comm]
  exact h2.symm

theorem lor_LOCAL_PRESENT_of_ge {v : Nat} (h1 : LOCAL_PRESENT ≤ v)
    (h2 : v < 2 ^ 32) : v ||| LOCAL_PRESENT = v := by
  rw [LOCAL_PRESENT_eq] at h1 ⊢
  obtain ⟨r, rfl⟩ : ∃ r, v = 2 ^ 31 + r := ⟨v - 2 ^ 31, by omega⟩
  have hr : r < 2 ^ 31 := by omega
  have hsplit : 2 ^ 31 + r = 2 ^ 31 ||| r := by
    have := Nat.mul_add_lt_is_or hr 1
    rwa [Nat.mul_one] at this
  rw [hsplit, Nat.lor_comm (2 ^ 31) r, Nat.lor_assoc, Nat.or_self]

theorem testBit31_iff {v : Nat} (h : v < 2 ^ 32) :
    v.testBit 31 = true ↔ LOCAL_PRESENT ≤ v := by
  rw [Nat.testBit_to_div_mod, LOCAL_PRESENT_eq]
  have h32 : (2 : Nat) ^ 32 = 4294967296 := by norm_num
  have h31 : (2 : Nat) ^ 31 = 2147483648 := by norm_num
  rw [h31]
  rw [h32] at h
  simp only [decide_eq_true_eq]
  omega

end Hybrid

end Flexrc

namespace Flexrc

namespace Hybrid

theorem localClone_inv {m m' : HybridMeta} {L S : Nat} (hInv : hybridInv m L S)
    (hL : 1 ≤ L) (h : localClone m = some m') : hybridInv m' (L + 1) S := by
  obtain ⟨hS, hLmax, hcase⟩ := hInv
  rcases hcase with ⟨h0, _, _⟩ | ⟨_, hlc, hsc⟩
  · omega
  · unfold localClone at h
    rw [hlc] at h
    by_cases hmax : L = MAX_LOCAL_COUNT
    · simp [hmax] at h
    · rw [if_neg (by simpa using hmax)] at h
      obtain rfl := Option.some.inj h
      exact ⟨hS, by have := MAX_LOCAL_COUNT; omega,
        Or.inr ⟨by omega, rfl, hsc⟩⟩

end Hybrid

end Flexrc

namespace Flexrc

namespace Hybrid

theorem localDrop_one (sc : Nat) :
    localDrop ⟨1, sc⟩ = (⟨0, sc &&& CLEAR_LOCAL⟩, sc == LOCAL_PRESENT) := by
  simp only [localDrop]
  norm_num

theorem localDrop_ge_two {L : Nat} (h1 : 2 ≤ L) (h2 : L ≤ 2 ^ 32 - 1)
    (sc : Nat) : localDrop ⟨L, sc⟩ = (⟨L - 1, sc⟩, false) := by
  have h32 : (2 : Nat) ^ 32 = 4294967296 := by norm_num
  have hmod : (L + (2 ^ 32 - 1)) % 2 ^ 32 = L - 1 := by rw [h32]; omega
  have hne : (L - 1 == 0) = false := beq_eq_false_iff_ne.mpr (by omega)
  simp only [localDrop, hmod, hne]
  simp

end Hybrid

end Flexrc

namespace Flexrc

namespace Hybrid

theorem localDrop_spec {m : HybridMeta} {L S : Nat} (hInv : hybridInv m L S)
    (hL : 1 ≤ L) :
    hybridInv (localDrop m).1 (L - 1) S ∧
      ((localDrop m).2 = true ↔ L + S = 1) := by
  obtain ⟨lc, sc⟩ := m
  obtain ⟨hS, hLmax, hcase⟩ := hInv
  rcases hcase with ⟨h0, _, _⟩ | ⟨_, hlc, hsc⟩
  · omega
  · simp only at hlc hsc
    rw [hlc, hsc]
    have hLP : LOCAL_PRESENT = 2147483648 := by decide
    have hMAX : MAX_LOCAL_COUNT = 4294967295 := by decide
    by_cases hone : L = 1
    · subst hone
      rw [localDrop_one, land_CLEAR_LOCAL]
      have h31 : (2 : Nat) ^ 31 = 2147483648 := by norm_num
      constructor
      · refine ⟨hS, by omega, Or.inl ⟨rfl, rfl, ?_⟩⟩
        dsimp only
        rw [h31, hLP]
        omega
      · rw [beq_iff_eq]
        omega
    · rw [localDrop_ge_two (by omega) (by omega)]
      refine ⟨⟨hS, by omega, Or.inr ⟨by omega, rfl, rfl⟩⟩, by simp; omega⟩

theorem sharedDrop_spec {m : HybridMeta} {L S : Nat} (hInv : hybridInv m L S)
    (hS : 1 ≤ S) :
    hybridInv (sharedDrop m).1 L (S - 1) ∧
      ((sharedDrop m).2 = true ↔ L + S = 1) := by
  obtain ⟨lc, sc⟩ := m
  obtain ⟨hSb, hLmax, hcase⟩ := hInv
  have h32 : (2 : Nat) ^ 32 = 4294967296 := by norm_num
  have hLP : LOCAL_PRESENT = 2147483648 := by decide
  rcases hcase with ⟨h0, hlc, hsc⟩ | ⟨hL1, hlc, hsc⟩
  · simp only at hlc hsc
    rw [hlc, hsc]
    subst h0
    simp only [sharedDrop]
    constructor
    · refine ⟨by omega, by omega, Or.inl ⟨rfl, rfl, ?_⟩⟩
      dsimp only
      rw [h32]
      omega
    · rw [beq_iff_eq]
      omega
  · simp only at hlc hsc
    rw [hlc, hsc]
    simp only [sharedDrop]
    constructor
    · refine ⟨by omega, hLmax, Or.inr ⟨hL1, rfl, ?_⟩⟩
      dsimp only
      rw [h32, hLP]
      have h30 : (2 : Nat) ^ 30 = 1073741824 := by norm_num
      rw [h30] at hSb
      omega
    · rw [beq_iff_eq]
      omega

theorem sharedClone_inv {m m' : HybridMeta} {L S : Nat}
    (hInv : hybridInv m L S) (hS : 1 ≤ S) (h : sharedClone m = some m') :
    hybridInv m' L (S + 1) := by
  obtain ⟨lc, sc⟩ := m
  obtain ⟨hSb, hLmax, hcase⟩ := hInv
  have h32 : (2 : Nat) ^ 32 = 4294967296 := by norm_num
  have h30 : (2 : Nat) ^ 30 = 1073741824 := by norm_num
  have hLP : LOCAL_PRESENT = 2147483648 := by decide
  have hMS : MAX_SHARED_COUNT = 1073741823 := by decide
  rcases hcase with ⟨h0, hlc, hsc⟩ | ⟨hL1, hlc, hsc⟩
  · simp only at hlc hsc
    subst h0
    unfold sharedClone at h
    rw [hsc] at h
    by_cases hover : MAX_SHARED_COUNT < S
    · rw [if_pos (by simpa using hover)] at h
      exact absurd h (by simp)
    · rw [if_neg (by simpa using hover)] at h
      obtain rfl := Option.some.inj h
      refine ⟨by rw [hMS] at hover; omega, hLmax, Or.inl ⟨rfl, hlc, ?_⟩⟩
      simp only
      rw [h32]
      rw [hMS] at hover
      omega
  · unfold sharedClone at h
    simp only at hsc
    rw [hsc] at h
    rw [if_pos (by rw [hMS, hLP]; simp; omega)] at h
    exact absurd h (by simp)

end Hybrid

end Flexrc

namespace Flexrc

namespace Hybrid

theorem hybridStep_spec {st st' : HRun} {op : HOp}
    (hInv : hybridInv st.meta st.liveL st.liveS)
    (h : hybridStep st op = some st') :
    hybridInv st'.meta st'.liveL st'.liveS ∧ 1 ≤ st.liveL + st.liveS ∧
      st'.deallocs = st.deallocs +
        (if st'.liveL + st'.liveS = 0 then 1 else 0) := by
  cases op with
  | cloneL =>
    simp only [hybridStep] at h
    by_cases hz : st.liveL = 0
    · rw [if_pos hz] at h
      exact Option.noConfusion h
    · rw [if_neg hz] at h
      cases hc : localClone st.meta with
      | none => rw [hc] at h; exact Option.noConfusion h
      | some m' =>
        rw [hc] at h
        simp only [Option.map_some'] at h
        obtain rfl := Option.some.inj h
        refine ⟨localClone_inv hInv (by omega) hc, by omega, ?_⟩
        dsimp only
        rw [if_neg (by omega)]
        omega
  | dropL =>
    rcases hld : localDrop st.meta with ⟨m1, flag⟩
    simp only [hybridStep, hld] at h
    by_cases hz : st.liveL = 0
    · rw [if_pos hz] at h
      exact Option.noConfusion h
    · rw [if_neg hz] at h
      obtain rfl := Option.some.inj h
      obtain ⟨hInv', hflag⟩ := localDrop_spec hInv (L := st.liveL)
        (S := st.liveS) (by omega)
      rw [hld] at hInv' hflag
      dsimp only at hInv' hflag ⊢
      refine ⟨hInv', by omega, ?_⟩
      cases flag with
      | true =>
        have h1 : st.liveL + st.liveS = 1 := by simpa using hflag
        rw [if_pos (by omega : st.liveL - 1 + st.liveS = 0)]
        simp
      | false =>
        have h1 : ¬st.liveL + st.liveS = 1 := by simpa using hflag
        rw [if_neg (by omega : ¬(st.liveL - 1 + st.liveS = 0))]
        simp
  | cloneS =>
    simp only [hybridStep] at h
    by_cases hz : st.liveS = 0
    · rw [if_pos hz] at h
      exact Option.noConfusion h
    · rw [if_neg hz] at h
      cases hc : sharedClone st.meta with
      | none => rw [hc] at h; exact Option.noConfusion h
      | some m' =>
        rw [hc] at h
        simp only [Option.map_some'] at h
        obtain rfl := Option.some.inj h
        refine ⟨sharedClone_inv hInv (by omega) hc, by omega, ?_⟩
        dsimp only
        rw [if_neg (by omega)]
        omega
  | dropS =>
    rcases hsd : sharedDrop st.meta with ⟨m1, flag⟩
    simp only [hybridStep, hsd] at h
    by_cases hz : st.liveS = 0
    · rw [if_pos hz] at h
      exact Option.noConfusion h
    · rw [if_neg hz] at h
      obtain rfl := Option.some.inj h
      obtain ⟨hInv', hflag⟩ := sharedDrop_spec hInv (L := st.liveL)
        (S := st.liveS) (by omega)
      rw [hsd] at hInv' hflag
      dsimp only at hInv' hflag ⊢
      refine ⟨hInv', by omega, ?_⟩
      cases flag with
      | true =>
        have h1 : st.liveL + st.liveS = 1 := by simpa using hflag
        rw [if_pos (by omega : st.liveL + (st.liveS - 1) = 0)]
        simp
      | false =>
        have h1 : ¬st.liveL + st.liveS = 1 := by simpa using hflag
        rw [if_neg (by omega : ¬(st.liveL + (st.liveS - 1) = 0))]
        simp

theorem hybridStep_dead {st : HRun} (h : st.liveL + st.liveS = 0)
    (op : HOp) : hybridStep st op = none := by
  have h1 : st.liveL = 0 := by omega
  have h2 : st.liveS = 0 := by omega
  cases op <;> simp [hybridStep, h1, h2]

theorem hybridRun_dead {st out : HRun} {ops : List HOp}
    (h : st.liveL + st.liveS = 0) (hr : hybridRun st ops = some out) :
    out = st ∧ ops = [] := by
  cases ops with
  | nil =>
    exact ⟨(Option.some.inj hr).symm, rfl⟩
  | cons op ops =>
    rw [hybridRun, hybridStep_dead h] at hr
    exact Option.noConfusion hr

theorem hybridRun_spec {ops : List HOp} {st out : HRun}
    (hInv : hybridInv st.meta st.liveL st.liveS)
    (h : hybridRun st ops = some out) :
    hybridInv out.meta out.liveL out.liveS ∧
      out.deallocs = st.deallocs +
        (if out.liveL + out.liveS = 0 ∧ st.liveL + st.liveS ≠ 0 then 1
         else 0) := by
  induction ops generalizing st with
  | nil =>
    obtain rfl := Option.some.inj h
    exact ⟨hInv, by simp⟩
  | cons op ops ih =>
    rw [hybridRun] at h
    cases hstep : hybridStep st op with
    | none => rw [hstep] at h; exact Option.noConfusion h
    | some st1 =>
      rw [hstep] at h
      obtain ⟨hInv1, hTot, hDeal⟩ := hybridStep_spec hInv hstep
      by_cases hz : st1.liveL + st1.liveS = 0
      · obtain ⟨rfl, rfl⟩ := hybridRun_dead hz h
        refine ⟨hInv1, ?_⟩
        rw [hDeal, if_pos hz, if_pos ⟨hz, by omega⟩]
      · obtain ⟨hInvO, hDealO⟩ := ih hInv1 h
        refine ⟨hInvO, ?_⟩
        rw [hDealO, hDeal, if_neg hz]
        by_cases ho : out.liveL + out.liveS = 0
        · rw [if_pos ⟨ho, hz⟩, if_pos ⟨ho, by omega⟩]
        · rw [if_neg (by tauto), if_neg (by tauto)]

end Hybrid

end Flexrc

namespace Flexrc

namespace Regular

theorem regLocalClone_inv {m m' : Meta} {H : Nat} (hInv : regularInv m H)
    (h : localClone m = some m') : regularInv m' (H + 1) := by
  obtain ⟨hc, hb⟩ := hInv
  unfold localClone at h
  rw [hc] at h
  by_cases hmax : H = MAX_LOCAL_COUNT
  · simp [hmax] at h
  · rw [if_neg (by simpa using hmax)] at h
    obtain rfl := Option.some.inj h
    have hM : MAX_LOCAL_COUNT = 2 ^ 64 - 1 := rfl
    exact ⟨rfl, by omega⟩

theorem regSharedClone_inv {m m' : Meta} {H : Nat} (hInv : regularInv m H)
    (h : sharedClone m = some m') : regularInv m' (H + 1) := by
  obtain ⟨hc, hb⟩ := hInv
  unfold sharedClone at h
  rw [hc] at h
  have hM : MAX_SHARED_COUNT = 2 ^ 63 - 1 := by decide
  by_cases hmax : MAX_SHARED_COUNT < H
  · rw [if_pos (by simpa using hmax)] at h
    exact Option.noConfusion h
  · rw [if_neg (by simpa using hmax)] at h
    obtain rfl := Option.some.inj h
    rw [hM] at hmax
    refine ⟨?_, by omega⟩
    dsimp only
    have h64 : (2 : Nat) ^ 64 = 18446744073709551616 := by norm_num
    rw [h64]
    omega

theorem regLocalDrop_spec {m : Meta} {H : Nat} (hInv : regularInv m H)
    (hH : 1 ≤ H) :
    regularInv (localDrop m).1 (H - 1) ∧
      ((localDrop m).2 = true ↔ H = 1) := by
  obtain ⟨hc, hb⟩ := hInv
  have h64 : (2 : Nat) ^ 64 = 18446744073709551616 := by norm_num
  simp only [localDrop, hc]
  have hmod : (H + (2 ^ 64 - 1)) % 2 ^ 64 = H - 1 := by rw [h64]; omega
  rw [hmod]
  refine ⟨⟨rfl, by omega⟩, ?_⟩
  rw [beq_iff_eq]
  omega

theorem regSharedDrop_spec {m : Meta} {H : Nat} (hInv : regularInv m H)
    (hH : 1 ≤ H) :
    regularInv (sharedDrop m).1 (H - 1) ∧
      ((sharedDrop m).2 = true ↔ H = 1) := by
  obtain ⟨hc, hb⟩ := hInv
  have h64 : (2 : Nat) ^ 64 = 18446744073709551616 := by norm_num
  simp only [sharedDrop, hc]
  have hmod : (H + (2 ^ 64 - 1)) % 2 ^ 64 = H - 1 := by rw [h64]; omega
  rw [hmod]
  refine ⟨⟨rfl, by omega⟩, ?_⟩
  rw [beq_iff_eq]

theorem localStep_spec {st st' : RRun} {op : ROp}
    (hInv : regularInv st.meta st.live)
    (h : localStep st op = some st') :
    regularInv st'.meta st'.live ∧ 1 ≤ st.live ∧
      st'.deallocs = st.deallocs + (if st'.live = 0 then 1 else 0) := by
  cases op with
  | clone =>
    simp only [localStep] at h
    by_cases hz : st.live = 0
    · rw [if_pos hz] at h
      exact Option.noConfusion h
    · rw [if_neg hz] at h
      cases hc : localClone st.meta with
      | none => rw [hc] at h; exact Option.noConfusion h
      | some m' =>
        rw [hc] at h
        simp only [Option.map_some'] at h
        obtain rfl := Option.some.inj h
        refine ⟨regLocalClone_inv hInv hc, by omega, ?_⟩
        dsimp only
        rw [if_neg (by omega)]
        omega
  | drop =>
    rcases hld : localDrop st.meta with ⟨m1, flag⟩
    simp only [localStep, hld] at h
    by_cases hz : st.live = 0
    · rw [if_pos hz] at h
      exact Option.noConfusion h
    · rw [if_neg hz] at h
      obtain rfl := Option.some.inj h
      obtain ⟨hInv', hflag⟩ := regLocalDrop_spec hInv (H := st.live) (by omega)
      rw [hld] at hInv' hflag
      dsimp only at hInv' hflag ⊢
      refine ⟨hInv', by omega, ?_⟩
      cases flag with
      | true =>
        have h1 : st.live = 1 := by simpa using hflag
        rw [if_pos (by omega : st.live - 1 = 0)]
        simp
      | false =>
        have h1 : ¬st.live = 1 := by simpa using hflag
        rw [if_neg (by omega : ¬(st.live - 1 = 0))]
        simp

theorem sharedStep_spec {st st' : RRun} {op : ROp}
    (hInv : regularInv st.meta st.live)
    (h : sharedStep st op = some st') :
    regularInv st'.meta st'.live ∧ 1 ≤ st.live ∧
      st'.deallocs = st.deallocs + (if st'.live = 0 then 1 else 0) := by
  cases op with
  | clone =>
    simp only [sharedStep] at h
    by_cases hz : st.live = 0
    · rw [if_pos hz] at h
      exact Option.noConfusion h
    · rw [if_neg hz] at h
      cases hc : sharedClone st.meta with
      | none => rw [hc] at h; exact Option.noConfusion h
      | some m' =>
        rw [hc] at h
        simp only [Option.map_some'] at h
        obtain rfl := Option.some.inj h
        refine ⟨regSharedClone_inv hInv hc, by omega, ?_⟩
        dsimp only
        rw [if_neg (by omega)]
        omega
  | drop =>
    rcases hsd : sharedDrop st.meta with ⟨m1, flag⟩
    simp only [sharedStep, hsd] at h
    by_cases hz : st.live = 0
    · rw [if_pos hz] at h
      exact Option.noConfusion h
    · rw [if_neg hz] at h
      obtain rfl := Option.some.inj h
      obtain ⟨hInv', hflag⟩ := regSharedDrop_spec hInv (H := st.live) (by omega)
      rw [hsd] at hInv' hflag
      dsimp only at hInv' hflag ⊢
      refine ⟨hInv', by omega, ?_⟩
      cases flag with
      | true =>
        have h1 : st.live = 1 := by simpa using hflag
        rw [if_pos (by omega : st.live - 1 = 0)]
        simp
      | false =>
        have h1 : ¬st.live = 1 := by simpa using hflag
        rw [if_neg (by omega : ¬(st.live - 1 = 0))]
        simp

theorem localStep_dead {st : RRun} (h : st.live = 0) (op : ROp) :
    localStep st op = none := by
  cases op <;> simp [localStep, h]

theorem sharedStep_dead {st : RRun} (h : st.live = 0) (op : ROp) :
    sharedStep st op = none := by
  cases op <;> simp [sharedStep, h]

theorem localRun_dead {st out : RRun} {ops : List ROp} (h : st.live = 0)
    (hr : localRun st ops = some out) : out = st ∧ ops = [] := by
  cases ops with
  | nil => exact ⟨(Option.some.inj hr).symm, rfl⟩
  | cons op ops =>
    rw [localRun, localStep_dead h] at hr
    exact Option.noConfusion hr

theorem sharedRun_dead {st out : RRun} {ops : List ROp} (h : st.live = 0)
    (hr : sharedRun st ops = some out) : out = st ∧ ops = [] := by
  cases ops with
  | nil => exact ⟨(Option.some.inj hr).symm, rfl⟩
  | cons op ops =>
    rw [sharedRun, sharedStep_dead h] at hr
    exact Option.noConfusion hr

theorem localRun_spec {ops : List ROp} {st out : RRun}
    (hInv : regularInv st.meta st.live)
    (h : localRun st ops = some out) :
    regularInv out.meta out.live ∧
      out.deallocs = st.deallocs +
        (if out.live = 0 ∧ st.live ≠ 0 then 1 else 0) := by
  induction ops generalizing st with
  | nil =>
    obtain rfl := Option.some.inj h
    exact ⟨hInv, by simp⟩
  | cons op ops ih =>
    rw [localRun] at h
    cases hstep : localStep st op with
    | none => rw [hstep] at h; exact Option.noConfusion h
    | some st1 =>
      rw [hstep] at h
      obtain ⟨hInv1, hTot, hDeal⟩ := localStep_spec hInv hstep
      by_cases hz : st1.live = 0
      · obtain ⟨rfl, rfl⟩ := localRun_dead hz h
        refine ⟨hInv1, ?_⟩
        rw [hDeal, if_pos hz, if_pos ⟨hz, by omega⟩]
      · obtain ⟨hInvO, hDealO⟩ := ih hInv1 h
        refine ⟨hInvO, ?_⟩
        rw [hDealO, hDeal, if_neg hz]
        by_cases ho : out.live = 0
        · rw [if_pos ⟨ho, hz⟩, if_pos ⟨ho, by omega⟩]
        · rw [if_neg (by tauto), if_neg (by tauto)]

theorem sharedRun_spec {ops : List ROp} {st out : RRun}
    (hInv : regularInv st.meta st.live)
    (h : sharedRun st ops = some out) :
    regularInv out.meta out.live ∧
      out.deallocs = st.deallocs +
        (if out.live = 0 ∧ st.live ≠ 0 then 1 else 0) := by
  induction ops generalizing st with
  | nil =>
    obtain rfl := Option.some.inj h
    exact ⟨hInv, by simp⟩
  | cons op ops ih =>
    rw [sharedRun] at h
    cases hstep : sharedStep st op with
    | none => rw [hstep] at h; exact Option.noConfusion h
    | some st1 =>
      rw [hstep] at h
      obtain ⟨hInv1, hTot, hDeal⟩ := sharedStep_spec hInv hstep
      by_cases hz : st1.live = 0
      · obtain ⟨rfl, rfl⟩ := sharedRun_dead hz h
        refine ⟨hInv1, ?_⟩
        rw [hDeal, if_pos hz, if_pos ⟨hz, by omega⟩]
      · obtain ⟨hInvO, hDealO⟩ := ih hInv1 h
        refine ⟨hInvO, ?_⟩
        rw [hDealO, hDeal, if_neg hz]
        by_cases ho : out.live = 0
        · rw [if_pos ⟨ho, hz⟩, if_pos ⟨ho, by omega⟩]
        · rw [if_neg (by tauto), if_neg (by tauto)]

end Regular

end Flexrc

namespace Flexrc

namespace Tracker

theorem getNewId_spec {fuel : Nat} {st : ThreadTrackerInner} {id : Nat}
    {st' : ThreadTrackerInner} (h : getNewId fuel st = some (id, st')) :
    id ∉ st.used_counters ∧ id ≠ 0 ∧
      st'.used_counters = id :: st.used_counters ∧ st'.counter = id := by
  induction fuel generalizing st with
  | zero => exact Option.noConfusion h
  | succ fuel ih =>
    rw [getNewId] at h
    by_cases hmem : (if st.counter + 1 == MAX_THREADS then 1
        else st.counter + 1) ∈ st.used_counters
    · simp only [insertUsed, if_pos hmem] at h
      have hmid := ih h
      exact hmid
    · simp only [insertUsed, if_neg hmem] at h
      obtain ⟨rfl, rfl⟩ := Prod.mk.injEq .. ▸ Option.some.inj h
      refine ⟨hmem, ?_, rfl, rfl⟩
      by_cases hwrap : st.counter + 1 == MAX_THREADS
      · rw [if_pos hwrap]
        omega
      · rw [if_neg hwrap]
        omega

theorem returnId_spec {st : ThreadTrackerInner} {id : Nat}
    (hnd : st.used_counters.Nodup) (x : Nat) :
    x ∈ (returnId st id).used_counters ↔
      x ∈ st.used_counters ∧ x ≠ id := by
  simp only [returnId]
  rw [hnd.mem_erase_iff]
  tauto

end Tracker

end Flexrc

/-! ### Claim theorems -/

namespace Flexrc

/-- Claim C3: the claim states that Local→Shared promotion in the hybrid
scheme is unconditional and never fails.  On the code it is refuted: the
promote path re-reads the metadata as `SharedMode` and runs its `clone`,
whose overflow check compares the raw shared word (which always carries
`LOCAL_PRESENT` while a Local handle exists) against `MAX_SHARED_COUNT`,
so promotion of even a freshly created Local record aborts the process. -/
theorem c3_hybrid_promote_aborts :
    Hybrid.localCreate.shared_count = Hybrid.LOCAL_PRESENT ∧
      Hybrid.MAX_SHARED_COUNT < Hybrid.LOCAL_PRESENT ∧
      Hybrid.localTryIntoOther Hybrid.localCreate = none := by
  refine ⟨rfl, by decide, ?_⟩
  decide

/-- Claim C6: in every scheme, `clone()` aborts exactly when the flavor's
counter has reached its representable maximum: the local counter at its
maximum value, the shared counter beyond its overflow threshold. -/
theorem c6_clone_aborts_at_max :
    (∀ m : Hybrid.HybridMeta,
        (Hybrid.localClone m = none ↔
          m.local_count = Hybrid.MAX_LOCAL_COUNT)) ∧
    (∀ m : Hybrid.HybridMeta,
        (Hybrid.sharedClone m = none ↔
          Hybrid.MAX_SHARED_COUNT < m.shared_count)) ∧
    (∀ m : Regular.Meta,
        (Regular.localClone m = none ↔
          m.count = Regular.MAX_LOCAL_COUNT)) ∧
    (∀ m : Regular.Meta,
        (Regular.sharedClone m = none ↔
          Regular.MAX_SHARED_COUNT < m.count)) := by
  refine ⟨fun m => ?_, fun m => ?_, fun m => ?_, fun m => ?_⟩
  · unfold Hybrid.localClone
    by_cases h : m.local_count = Hybrid.MAX_LOCAL_COUNT
    · simp [h]
    · rw [if_neg (by simpa using h)]
      simp [h]
  · unfold Hybrid.sharedClone
    by_cases h : Hybrid.MAX_SHARED_COUNT < m.shared_count
    · simp [h]
    · rw [if_neg (by simpa using h)]
      simp [h]
  · unfold Regular.localClone
    by_cases h : m.count = Regular.MAX_LOCAL_COUNT
    · simp [h]
    · rw [if_neg (by simpa using h)]
      simp [h]
  · unfold Regular.sharedClone
    by_cases h : Regular.MAX_SHARED_COUNT < m.count
    · simp [h]
    · rw [if_neg (by simpa using h)]
      simp [h]

/-- Witness for C6 at concrete counter values. -/
theorem c6_clone_aborts_at_max_witness :
    Hybrid.localClone ⟨Hybrid.MAX_LOCAL_COUNT, 7⟩ = none ∧
      Regular.sharedClone ⟨Regular.MAX_SHARED_COUNT + 1⟩ = none :=
  ⟨(c6_clone_aborts_at_max.1 ⟨Hybrid.MAX_LOCAL_COUNT, 7⟩).mpr (by decide),
    (c6_clone_aborts_at_max.2.2.2 ⟨Regular.MAX_SHARED_COUNT + 1⟩).mpr
      (by decide)⟩

/-- Claim C8: in the independent-counter scheme, the non-consuming
conversion fails unconditionally, returning the original metadata with no
state changed, for both flavors. -/
theorem c8_regular_try_to_other_always_fails :
    ∀ m : Regular.Meta,
      Regular.localTryToOther m = .error m ∧
        Regular.sharedTryToOther m = .error m :=
  fun _ => ⟨rfl, rfl⟩

/-- Witness for C8 at a concrete counter value. -/
theorem c8_regular_try_to_other_always_fails_witness :
    Regular.localTryToOther ⟨3⟩ = .error ⟨3⟩ ∧
      Regular.sharedTryToOther ⟨3⟩ = .error ⟨3⟩ :=
  c8_regular_try_to_other_always_fails ⟨3⟩

/-- Claim C5: independent-counter consuming conversion succeeds exactly when
the handle is unique (count 1); with two or more live handles it fails with
the original metadata unchanged, and after dropping to one handle a retry
succeeds. -/
theorem c5_regular_conversion_iff_unique :
    (∀ m : Regular.Meta,
        (Regular.localTryIntoOther m = .ok ⟨1⟩ ↔ m.count = 1) ∧
        (m.count ≠ 1 → Regular.localTryIntoOther m = .error m) ∧
        (Regular.sharedTryIntoOther m = .ok ⟨1⟩ ↔ m.count = 1) ∧
        (m.count ≠ 1 → Regular.sharedTryIntoOther m = .error m)) ∧
    Regular.localTryIntoOther ⟨2⟩ = .error ⟨2⟩ ∧
    Regular.localDrop ⟨2⟩ = (⟨1⟩, false) ∧
    Regular.localTryIntoOther ⟨1⟩ = .ok ⟨1⟩ := by
  refine ⟨fun m => ?_, rfl, by decide, rfl⟩
  unfold Regular.localTryIntoOther Regular.sharedTryIntoOther
  unfold Regular.localIsUnique Regular.sharedIsUnique
  by_cases h : m.count = 1
  · simp [h]
  · rw [if_neg (by simpa using h)]
    simp [h]

/-- Witness for C5 discharging the non-uniqueness hypothesis at count 2. -/
theorem c5_regular_conversion_iff_unique_witness :
    Regular.localTryIntoOther ⟨2⟩ = .error ⟨2⟩ ∧
      Regular.sharedTryIntoOther ⟨2⟩ = .error ⟨2⟩ :=
  ⟨(c5_regular_conversion_iff_unique.1 ⟨2⟩).2.1 (by decide),
    (c5_regular_conversion_iff_unique.1 ⟨2⟩).2.2.2 (by decide)⟩

end Flexrc

namespace Flexrc

/-- Claim C4: a Shared handle's claim of Local flavor (hybrid scheme,
thread tracking disabled) succeeds exactly when the local-presence bit of
the shared word is clear; on success it sets the presence bit and increments
the local counter; on failure it leaves the word exactly as the winning
claimant set it and changes nothing else. -/
theorem c4_claim_iff_presence_clear :
    ∀ m : Hybrid.HybridMeta, m.shared_count < 2 ^ 32 →
      m.local_count ≠ Hybrid.MAX_LOCAL_COUNT →
      (((Hybrid.sharedTryIntoOther m).map Prod.snd = some true) ↔
          m.shared_count.testBit 31 = false) ∧
      (m.shared_count.testBit 31 = false →
        Hybrid.sharedTryIntoOther m =
          some (⟨m.local_count + 1,
            m.shared_count + Hybrid.LOCAL_PRESENT⟩, true)) ∧
      (m.shared_count.testBit 31 = true →
        Hybrid.sharedTryIntoOther m = some (m, false)) := by
  intro m hword hmax
  have hbit := Hybrid.testBit31_iff hword
  by_cases hlt : m.shared_count < Hybrid.LOCAL_PRESENT
  · have hbitf : m.shared_count.testBit 31 = false := by
      cases hb : m.shared_count.testBit 31
      · rfl
      · exact absurd (hbit.mp hb) (by omega)
    have hor := Hybrid.lor_LOCAL_PRESENT_of_lt hlt
    have hclone : Hybrid.localClone
        ⟨m.local_count, m.shared_count ||| Hybrid.LOCAL_PRESENT⟩ =
        some ⟨m.local_count + 1, m.shared_count ||| Hybrid.LOCAL_PRESENT⟩ := by
      unfold Hybrid.localClone
      rw [if_neg (by simpa using hmax)]
    have hres : Hybrid.sharedTryIntoOther m =
        some (⟨m.local_count + 1,
          m.shared_count + Hybrid.LOCAL_PRESENT⟩, true) := by
      unfold Hybrid.sharedTryIntoOther
      rw [if_pos hlt]
      have : ({ m with shared_count :=
          m.shared_count ||| Hybrid.LOCAL_PRESENT } : Hybrid.HybridMeta) =
          ⟨m.local_count, m.shared_count ||| Hybrid.LOCAL_PRESENT⟩ := rfl
      rw [this, hclone]
      simp only [Option.map_some']
      rw [hor, Nat.add_comm Hybrid.LOCAL_PRESENT m.shared_count]
    refine ⟨?_, fun _ => hres, fun hb => absurd hb (by rw [hbitf]; simp)⟩
    rw [hres]
    simp [hbitf]
  · have hge : Hybrid.LOCAL_PRESENT ≤ m.shared_count := by omega
    have hbitt : m.shared_count.testBit 31 = true := hbit.mpr hge
    have hres : Hybrid.sharedTryIntoOther m = some (m, false) := by
      unfold Hybrid.sharedTryIntoOther
      rw [if_neg hlt, Hybrid.lor_LOCAL_PRESENT_of_ge hge hword]
    refine ⟨?_, fun hb => absurd hbitt (by rw [hb]; simp),
      fun _ => hres⟩
    rw [hres]
    simp [hbitt]

/-- Witness for C4: a fresh Shared record (claim succeeds) and a record with
the presence bit already set (claim fails, word untouched). -/
theorem c4_claim_iff_presence_clear_witness :
    Hybrid.sharedTryIntoOther ⟨0, 1⟩ =
        some (⟨1, 1 + Hybrid.LOCAL_PRESENT⟩, true) ∧
      Hybrid.sharedTryIntoOther ⟨1, Hybrid.LOCAL_PRESENT + 1⟩ =
        some (⟨1, Hybrid.LOCAL_PRESENT + 1⟩, false) :=
  ⟨(c4_claim_iff_presence_clear ⟨0, 1⟩ (by decide) (by decide)).2.1
      (by decide),
    (c4_claim_iff_presence_clear ⟨1, Hybrid.LOCAL_PRESENT + 1⟩ (by decide)
      (by decide)).2.2 (by decide)⟩

/-- Claim C10: when the last Local handle drops, the `fetch_and` with
`CLEAR_LOCAL` clears only the top (local-presence) bit of the shared word:
the shared-count bits (all bits below the top bit) keep their previous
value, for every prior value of the word. -/
theorem c10_clear_local_preserves_count_bits :
    ∀ m : Hybrid.HybridMeta, m.local_count = 1 → m.shared_count < 2 ^ 32 →
      (Hybrid.localDrop m).1.shared_count % Hybrid.LOCAL_PRESENT =
          m.shared_count % Hybrid.LOCAL_PRESENT ∧
        (Hybrid.localDrop m).1.shared_count < Hybrid.LOCAL_PRESENT ∧
        (Hybrid.localDrop m).1.shared_count =
          m.shared_count &&& Hybrid.CLEAR_LOCAL := by
  intro m h1 hword
  obtain ⟨lc, sc⟩ := m
  simp only at h1 hword
  subst h1
  rw [Hybrid.localDrop_one]
  dsimp only
  rw [Hybrid.land_CLEAR_LOCAL, Hybrid.LOCAL_PRESENT_eq]
  have h31 : (2 : Nat) ^ 31 = 2147483648 := by norm_num
  rw [h31]
  exact ⟨by omega, by omega, rfl⟩

/-- Witness for C10 at a word with the presence bit and shared count 5. -/
theorem c10_clear_local_preserves_count_bits_witness :
    (Hybrid.localDrop ⟨1, Hybrid.LOCAL_PRESENT + 5⟩).1.shared_count = 5 := by
  have h := c10_clear_local_preserves_count_bits
    ⟨1, Hybrid.LOCAL_PRESENT + 5⟩ rfl (by decide)
  rw [h.2.2]
  decide

end Flexrc

namespace Flexrc

/-- Claim C1: over every legal, non-aborting sequence of clone and drop
steps on one record (either counting scheme, starting from any counting
state consistent with the live handles), `drop()` reports deallocation
exactly once, at the step where the last live handle of either flavor
drops (combined count reaching zero), and never while a handle remains. -/
theorem c1_dealloc_exactly_once :
    (∀ (ops : List Hybrid.HOp) (st out : Hybrid.HRun),
        Hybrid.hybridInv st.meta st.liveL st.liveS →
        1 ≤ st.liveL + st.liveS → st.deallocs = 0 →
        Hybrid.hybridRun st ops = some out →
        out.deallocs = if out.liveL + out.liveS = 0 then 1 else 0) ∧
    (∀ (ops : List Regular.ROp) (st out : Regular.RRun),
        Regular.regularInv st.meta st.live → 1 ≤ st.live →
        st.deallocs = 0 → Regular.localRun st ops = some out →
        out.deallocs = if out.live = 0 then 1 else 0) ∧
    (∀ (ops : List Regular.ROp) (st out : Regular.RRun),
        Regular.regularInv st.meta st.live → 1 ≤ st.live →
        st.deallocs = 0 → Regular.sharedRun st ops = some out →
        out.deallocs = if out.live = 0 then 1 else 0) := by
  refine ⟨fun ops st out hInv hTot hD h => ?_,
    fun ops st out hInv hTot hD h => ?_,
    fun ops st out hInv hTot hD h => ?_⟩
  · obtain ⟨_, hDeal⟩ := Hybrid.hybridRun_spec hInv h
    have hne : st.liveL + st.liveS ≠ 0 := by omega
    rw [hDeal, hD]
    simp [hne]
  · obtain ⟨_, hDeal⟩ := Regular.localRun_spec hInv h
    have hne : st.live ≠ 0 := by omega
    rw [hDeal, hD]
    simp [hne]
  · obtain ⟨_, hDeal⟩ := Regular.sharedRun_spec hInv h
    have hne : st.live ≠ 0 := by omega
    rw [hDeal, hD]
    simp [hne]

/-- Witness for C1: wrap a value as hybrid Local, clone once, drop both
handles; the run reports deallocation exactly once, at the second drop. -/
theorem c1_dealloc_exactly_once_witness :
    Hybrid.hybridRun ⟨Hybrid.localCreate, 1, 0, 0⟩
        [Hybrid.HOp.cloneL, Hybrid.HOp.dropL, Hybrid.HOp.dropL] =
      some ⟨⟨0, 0⟩, 0, 0, 1⟩ ∧
    (⟨⟨0, 0⟩, 0, 0, 1⟩ : Hybrid.HRun).deallocs = 1 := by
  refine ⟨by decide, ?_⟩
  have h := c1_dealloc_exactly_once.1
    [Hybrid.HOp.cloneL, Hybrid.HOp.dropL, Hybrid.HOp.dropL]
    ⟨Hybrid.localCreate, 1, 0, 0⟩ ⟨⟨0, 0⟩, 0, 0, 1⟩
    (by unfold Hybrid.hybridInv; decide) (by decide) rfl (by decide)
  simpa using h

/-- Claim C2: `get_mut` yields exclusive access exactly when `is_unique`
reports true and mutates nothing, and on every counting state consistent
with `L` live Local and `S` live Shared handles, `is_unique` of the
handle's flavor is true exactly when one live handle exists in total. -/
theorem c2_get_mut_iff_unique :
    (∀ (μ α : Type) (iu : μ → Bool) (hp : Container.Heap μ α) (p : Nat)
        (r : Container.FlexRcInner μ α), hp.recs.get? p = some r →
        ((Container.getMut iu hp p).isSome ↔ iu r.metadata = true)) ∧
    (∀ (m : Hybrid.HybridMeta) (L S : Nat), Hybrid.hybridInv m L S →
        1 ≤ L → (Hybrid.localIsUnique m = true ↔ L + S = 1)) ∧
    (∀ (m : Hybrid.HybridMeta) (L S : Nat), Hybrid.hybridInv m L S →
        1 ≤ S → (Hybrid.sharedIsUnique m = true ↔ L + S = 1)) ∧
    (∀ (m : Regular.Meta) (H : Nat), Regular.regularInv m H →
        ((Regular.localIsUnique m = true ↔ H = 1) ∧
          (Regular.sharedIsUnique m = true ↔ H = 1))) := by
  refine ⟨?_, ?_, ?_, ?_⟩
  · intro μ α iu hp p r hr
    unfold Container.getMut
    rw [hr]
    cases hu : iu r.metadata <;> simp [hu]
  · intro m L S hInv hL
    obtain ⟨hS, hLmax, hcase⟩ := hInv
    rcases hcase with ⟨h0, _, _⟩ | ⟨_, hlc, hsc⟩
    · omega
    · unfold Hybrid.localIsUnique
      rw [hlc, hsc]
      have hLP : Hybrid.LOCAL_PRESENT = 2147483648 := by decide
      rw [hLP]
      simp only [Bool.and_eq_true, beq_iff_eq]
      omega
  · intro m L S hInv hS1
    obtain ⟨hS, hLmax, hcase⟩ := hInv
    unfold Hybrid.sharedIsUnique
    have hLP : Hybrid.LOCAL_PRESENT = 2147483648 := by decide
    rcases hcase with ⟨h0, hlc, hsc⟩ | ⟨hL1, hlc, hsc⟩
    · rw [hsc]
      simp only [beq_iff_eq]
      omega
    · rw [hsc, hLP]
      simp only [beq_iff_eq]
      omega
  · intro m H hInv
    obtain ⟨hc, hb⟩ := hInv
    unfold Regular.localIsUnique Regular.sharedIsUnique
    rw [hc]
    simp

/-- Witness for C2: a unique record yields access; a hybrid state with one
Local and one Shared handle is not unique from either flavor. -/
theorem c2_get_mut_iff_unique_witness :
    (Container.getMut Regular.localIsUnique
        ⟨[⟨⟨1⟩, (42 : Nat)⟩]⟩ 0).isSome = true ∧
    (Hybrid.localIsUnique ⟨1, Hybrid.LOCAL_PRESENT⟩ = true) ∧
    ¬(Hybrid.localIsUnique ⟨1, Hybrid.LOCAL_PRESENT + 1⟩ = true) ∧
    ¬(Hybrid.sharedIsUnique ⟨1, Hybrid.LOCAL_PRESENT + 1⟩ = true) := by
  refine ⟨?_, ?_, ?_, ?_⟩
  · rw [(c2_get_mut_iff_unique.1 Regular.Meta Nat Regular.localIsUnique
      ⟨[⟨⟨1⟩, 42⟩]⟩ 0 ⟨⟨1⟩, 42⟩ (by decide))]
    decide
  · exact (c2_get_mut_iff_unique.2.1 ⟨1, Hybrid.LOCAL_PRESENT⟩ 1 0
      (by unfold Hybrid.hybridInv; decide) (by decide)).mpr (by decide)
  · intro hu
    have := (c2_get_mut_iff_unique.2.1 ⟨1, Hybrid.LOCAL_PRESENT + 1⟩ 1 1
      (by unfold Hybrid.hybridInv; decide) (by decide)).mp hu
    omega
  · intro hu
    have := (c2_get_mut_iff_unique.2.2.1 ⟨1, Hybrid.LOCAL_PRESENT + 1⟩ 1 1
      (by unfold Hybrid.hybridInv; decide) (by decide)).mp hu
    omega

end Flexrc

namespace Flexrc

/-- Claim C7: if converting a handle to the complementary flavor succeeds
and converting the result back succeeds as well, the final handle carries
the original pointer over an unchanged heap: no record was allocated and
the payload at the pointer is unchanged. -/
theorem c7_round_trip_same_record :
    ∀ (μ α : Type) (iu : μ → Bool) (hp hp1 hp2 : Container.Heap μ α)
      (p p1 p2 : Nat),
      Container.tryIntoOther iu hp p = (hp1, some p1) →
      Container.tryIntoOther iu hp1 p1 = (hp2, some p2) →
      p2 = p ∧ hp2 = hp ∧ hp2.recs.length = hp.recs.length ∧
        (hp2.recs.get? p2).map Container.FlexRcInner.data =
          (hp.recs.get? p).map Container.FlexRcInner.data := by
  intro μ α iu hp hp1 hp2 p p1 p2 h1 h2
  unfold Container.tryIntoOther at h1 h2
  cases hr : hp.recs.get? p with
  | none =>
    rw [hr] at h1
    rw [Prod.mk.injEq] at h1
    exact Option.noConfusion h1.2
  | some r =>
    rw [hr] at h1
    dsimp only at h1
    by_cases hu : iu r.metadata = true
    · rw [if_pos hu, Prod.mk.injEq] at h1
      obtain ⟨rfl, hp1⟩ := h1
      obtain rfl := Option.some.inj hp1
      rw [hr] at h2
      dsimp only at h2
      rw [if_pos hu, Prod.mk.injEq] at h2
      obtain ⟨rfl, hp2⟩ := h2
      obtain rfl := Option.some.inj hp2
      exact ⟨rfl, rfl, rfl, by rw [hr]⟩
    · rw [if_neg hu, Prod.mk.injEq] at h1
      exact Option.noConfusion h1.2

/-- Witness for C7: a singleton heap with a unique record round-trips to
the same pointer with the heap untouched. -/
theorem c7_round_trip_same_record_witness :
    Container.tryIntoOther Regular.localIsUnique
        (⟨[⟨⟨1⟩, (42 : Nat)⟩]⟩ : Container.Heap Regular.Meta Nat) 0 =
      (⟨[⟨⟨1⟩, 42⟩]⟩, some 0) ∧
    (0 : Nat) = 0 ∧
      (⟨[⟨⟨1⟩, (42 : Nat)⟩]⟩ : Container.Heap Regular.Meta Nat) =
        ⟨[⟨⟨1⟩, 42⟩]⟩ := by
  refine ⟨by decide, ?_, ?_⟩
  · exact (c7_round_trip_same_record Regular.Meta Nat Regular.localIsUnique
      ⟨[⟨⟨1⟩, 42⟩]⟩ ⟨[⟨⟨1⟩, 42⟩]⟩ ⟨[⟨⟨1⟩, 42⟩]⟩ 0 0 0
      (by decide) (by decide)).1
  · exact (c7_round_trip_same_record Regular.Meta Nat Regular.localIsUnique
      ⟨[⟨⟨1⟩, 42⟩]⟩ ⟨[⟨⟨1⟩, 42⟩]⟩ ⟨[⟨⟨1⟩, 42⟩]⟩ 0 0 0
      (by decide) (by decide)).2.1

/-- Claim C9: `get_new_id` returns an identity absent from the issued set,
never the reserved sentinel 0, inserted into the set and equal to the new
counter value; the counter probe wraps back to 1 upon reaching
`MAX_THREADS` and otherwise is the increment; `return_id` removes exactly
the returned identity. -/
theorem c9_tracker_identity_spec :
    (∀ (fuel : Nat) (st : Tracker.ThreadTrackerInner) (id : Nat)
        (st' : Tracker.ThreadTrackerInner),
        Tracker.getNewId fuel st = some (id, st') →
        id ∉ st.used_counters ∧ id ≠ 0 ∧
          st'.used_counters = id :: st.used_counters ∧ st'.counter = id) ∧
    (∀ (st : Tracker.ThreadTrackerInner) (fuel : Nat),
        st.counter + 1 = Tracker.MAX_THREADS → 1 ∉ st.used_counters →
        Tracker.getNewId (fuel + 1) st =
          some (1, ⟨1, 1 :: st.used_counters⟩)) ∧
    (∀ (st : Tracker.ThreadTrackerInner) (fuel : Nat),
        st.counter + 1 ≠ Tracker.MAX_THREADS →
        st.counter + 1 ∉ st.used_counters →
        Tracker.getNewId (fuel + 1) st =
          some (st.counter + 1,
            ⟨st.counter + 1, (st.counter + 1) :: st.used_counters⟩)) ∧
    (∀ (st : Tracker.ThreadTrackerInner) (id x : Nat),
        st.used_counters.Nodup →
        (x ∈ (Tracker.returnId st id).used_counters ↔
          x ∈ st.used_counters ∧ x ≠ id)) := by
  refine ⟨fun fuel st id st' h => Tracker.getNewId_spec h,
    ?_, ?_, fun st id x hnd => Tracker.returnId_spec hnd x⟩
  · intro st fuel hwrap hfree
    rw [Tracker.getNewId]
    have hb : (st.counter + 1 == Tracker.MAX_THREADS) = true := by
      simpa using hwrap
    rw [hb]
    simp only [if_true]
    simp only [Tracker.insertUsed, if_neg hfree]
  · intro st fuel hwrap hfree
    rw [Tracker.getNewId]
    have hb : (st.counter + 1 == Tracker.MAX_THREADS) = false := by
      simpa using hwrap
    rw [hb]
    simp only [Bool.false_eq_true, if_false]
    simp only [Tracker.insertUsed, if_neg hfree]

/-- Witness for C9: issuing from counter 0 with identity 1 already taken
returns 2, and returning it removes exactly 2. -/
theorem c9_tracker_identity_spec_witness :
    Tracker.getNewId 5 ⟨0, [1]⟩ = some (2, ⟨2, [2, 1]⟩) ∧
    (2 ∉ ([1] : List Nat) ∧ (2 : Nat) ≠ 0 ∧
      ([2, 1] : List Nat) = 2 :: [1] ∧ (2 : Nat) = 2) ∧
    (2 ∈ (Tracker.returnId ⟨2, [2, 1]⟩ 1).used_counters ↔
      2 ∈ ([2, 1] : List Nat) ∧ (2 : Nat) ≠ 1) := by
  refine ⟨by decide, ?_, ?_⟩
  · exact c9_tracker_identity_spec.1 5 ⟨0, [1]⟩ 2 ⟨2, [2, 1]⟩ (by decide)
  · exact c9_tracker_identity_spec.2.2.2 ⟨2, [2, 1]⟩ 1 2 (by decide)

end Flexrc
